import Mathlib

/-!
Shallow embedding of the NPU C reference model (`sw/ref/npu_ref.c`,
`sw/ref/npu_ref.h`) and verification of its specification.

Modelling conventions:
* `int8_t` and `int32_t` values are modelled as `Int`.  Products of two
  8-bit values always fit in 32 bits; overflow of the 32-bit accumulator is
  left unspecified by the data model (signed overflow is undefined in C), so
  accumulation is modelled as exact integer addition.
* Caller-owned C buffers are modelled as total functions `Nat → Int`; the C
  functions only ever access indices that are in bounds under the documented
  size invariants, and each loop that writes a buffer is translated as a
  fold of `Function.update` steps in the exact iteration order of the source.
* The libc pseudo-random generator (`srand`/`rand`) is modelled by an
  arbitrary state type `σ` together with a seeding function `Nat → σ` and a
  stepping function `σ → Nat × σ` (rand returns a nonnegative int).
* Files are modelled by their character contents; `fopen` failure is
  modelled by an `Option`/`Bool` parameter.  `fprintf "%02X\n"`/`"%08X\n"`
  and `fscanf "%x"` are modelled character by character below.
-/

/-- RTL parameter SUBARRAY_ROWS (npu_ref.h). -/
def SUBARRAY_ROWS : Nat := 32

/-- RTL parameter SUBARRAY_COLS (npu_ref.h). -/
def SUBARRAY_COLS : Nat := 8

/-- The list of loop-counter values of the C idiom
`for (s = 0; s < dim; s += t)`: all multiples of `t` below `dim`. -/
def tileStarts (dim t : Nat) : List Nat :=
  (List.range ((dim + t - 1) / t)).map (fun i => i * t)

/-- The list of loop-counter values of the C idiom
`for (x = s; x < e; x++)` where `e = (s + t < dim) ? s + t : dim`
(note `e = min (s + t) dim` whenever the tile start `s` is below `dim`). -/
def tileRange (s t dim : Nat) : List Nat :=
  List.range' s (min (s + t) dim - s)

/-- Struct `GemvLayer` (npu_ref.h): dimensions plus the four caller buffers. -/
structure GemvLayer where
  input_dim : Nat
  output_dim : Nat
  weights : Nat → Int
  input : Nat → Int
  output : Nat → Int
  bias : Nat → Int

/-- Struct `GemmLayer` (npu_ref.h): dimensions plus the three caller buffers. -/
structure GemmLayer where
  M : Nat
  K : Nat
  N : Nat
  A : Nat → Int
  B : Nat → Int
  C : Nat → Int

/-- C function `ref_mac`: `*acc += (int32_t)input * (int32_t)weight`;
returns the new accumulator value. -/
def ref_mac (input weight : Int) (acc : Int) : Int :=
  acc + input * weight

/-- C function `ref_gemv`: for each `o < output_dim` (ascending) it computes
`sum = Σ_i weights[o*input_dim+i] * input[i]` by an ascending loop over `i`
and stores `output[o] = sum + bias[o]`.  Returns the updated output buffer. -/
def ref_gemv (layer : GemvLayer) : Nat → Int :=
  (List.range layer.output_dim).foldl
    (fun out o =>
      Function.update out o
        (((List.range layer.input_dim).foldl
            (fun sum i => sum + layer.weights (o * layer.input_dim + i) * layer.input i) 0)
          + layer.bias o))
    layer.output

/-- C function `ref_gemm`: triple loop `m`, `n`, `k` (each ascending), storing
`C[m*N+n] = Σ_k A[m*K+k] * B[k*N+n]`.  Returns the updated C buffer. -/
def ref_gemm (layer : GemmLayer) : Nat → Int :=
  (List.range layer.M).foldl
    (fun c m =>
      (List.range layer.N).foldl
        (fun c n =>
          Function.update c (m * layer.N + n)
            ((List.range layer.K).foldl
              (fun sum k => sum + layer.A (m * layer.K + k) * layer.B (k * layer.N + n)) 0))
        c)
    layer.C

/-- C function `ref_gemv_tiled`: `memset(output, 0, output_dim * 4)` then the
four nested loops over `o_tile` (step SUBARRAY_ROWS), `i_tile` (step
SUBARRAY_COLS), `o`, `i`, with body `output[o] += weights[o*input_dim+i] *
input[i]`.  Returns the updated output buffer. -/
def ref_gemv_tiled (input weights output : Nat → Int) (input_dim output_dim : Nat) :
    Nat → Int :=
  let out0 := (List.range output_dim).foldl (fun out o => Function.update out o 0) output
  (tileStarts output_dim SUBARRAY_ROWS).foldl
    (fun out o_tile =>
      (tileStarts input_dim SUBARRAY_COLS).foldl
        (fun out i_tile =>
          (tileRange o_tile SUBARRAY_ROWS output_dim).foldl
            (fun out o =>
              (tileRange i_tile SUBARRAY_COLS input_dim).foldl
                (fun out i =>
                  Function.update out o (out o + weights (o * input_dim + i) * input i))
                out)
            out)
        out)
    out0

/-- C function `ref_gemm_tiled`: `memset(C, 0, M * N * 4)` then the five
nested loops over `m_tile` (step SUBARRAY_ROWS), `k_tile` (step
SUBARRAY_COLS), `n`, `m`, `k`, with body `C[m*N+n] += A[m*K+k] * B[k*N+n]`.
Returns the updated C buffer. -/
def ref_gemm_tiled (a b c : Nat → Int) (M K N : Nat) : Nat → Int :=
  let c0 := (List.range (M * N)).foldl (fun cc j => Function.update cc j 0) c
  (tileStarts M SUBARRAY_ROWS).foldl
    (fun cc m_tile =>
      (tileStarts K SUBARRAY_COLS).foldl
        (fun cc k_tile =>
          (List.range N).foldl
            (fun cc n =>
              (tileRange m_tile SUBARRAY_ROWS M).foldl
                (fun cc m =>
                  (tileRange k_tile SUBARRAY_COLS K).foldl
                    (fun cc k =>
                      Function.update cc (m * N + n) (cc (m * N + n) + a (m * K + k) * b (k * N + n)))
                    cc)
                cc)
            cc)
        cc)
    c0

/-- Mathematical (direct) GEMV row sum `Σ_{k<K} weights[o*K+k] * input[k]`,
the reference value named in the specification. -/
def gemvDirectSum (input weights : Nat → Int) (K o : Nat) : Int :=
  ((List.range K).map (fun k => weights (o * K + k) * input k)).sum

/-- Mathematical (direct) GEMM entry `Σ_{k<K} A[m*K+k] * B[k*N+n]`,
the reference value named in the specification. -/
def gemmDirectSum (a b : Nat → Int) (K N m n : Nat) : Int :=
  ((List.range K).map (fun k => a (m * K + k) * b (k * N + n))).sum

/-- Model of the C cast `(uint8_t)v` (width 8) / `(uint32_t)v` (width 32):
the two's-complement bit pattern of `v`, as a natural number below `2^w`. -/
def toBits (w : Nat) (v : Int) : Nat :=
  (v % ((2 : Int) ^ w)).toNat

/-- Model of the C casts `(int8_t)n` (width 8) / `(int32_t)n` (width 32)
applied to an unsigned value: reduce modulo `2^w` and reinterpret the
pattern as a signed two's-complement integer. -/
def toSigned (w : Nat) (n : Nat) : Int :=
  if n % 2 ^ w < 2 ^ (w - 1) then ((n % 2 ^ w : Nat) : Int)
  else ((n % 2 ^ w : Nat) : Int) - (2 : Int) ^ w

/-- Hex digit character printed by printf `%X` for a digit value `d < 16`:
`0`-`9` then upper-case `A`-`F`. -/
def hexDigitChar (d : Nat) : Char :=
  if d < 10 then Char.ofNat (48 + d) else Char.ofNat (55 + d)

/-- Digit value accepted by scanf `%x` for a hex digit character. -/
def hexDigitVal (c : Char) : Nat :=
  if '0' ≤ c ∧ c ≤ '9' then c.toNat - 48
  else if 'a' ≤ c ∧ c ≤ 'f' then c.toNat - 87
  else c.toNat - 55

/-- Character class accepted by scanf `%x` as a hex digit (isxdigit). -/
def isHexDigitC (c : Char) : Bool :=
  ('0' ≤ c && c ≤ '9') || ('a' ≤ c && c ≤ 'f') || ('A' ≤ c && c ≤ 'F')

/-- Character class skipped by scanf before a `%x` conversion (isspace):
space, tab, newline, vertical tab, form feed, carriage return. -/
def isWsC (c : Char) : Bool :=
  c == ' ' || c == '\t' || c == '\n' || c == '\x0b' || c == '\x0c' || c == '\r'

/-- Predicate describing the characters printf `%X` can emit: a decimal
digit or an upper-case hex letter. -/
def isUpperHexC (c : Char) : Bool :=
  ('0' ≤ c && c ≤ '9') || ('A' ≤ c && c ≤ 'F')

/-- Hex digits of `n`, least significant first, as produced by repeated
division by 16.  The first argument is structural fuel; any fuel `≥ n`
yields the complete digit list (printf itself has no fuel, and the fuel
value never influences the result on adequate fuel). -/
def natHexRev : Nat → Nat → List Char
  | 0, _ => []
  | fuel + 1, n => if n = 0 then [] else hexDigitChar (n % 16) :: natHexRev fuel (n / 16)

/-- Minimal upper-case hex rendering of `n` (what printf `%X` prints before
padding): at least one digit, no leading zeros. -/
def natHex (n : Nat) : List Char :=
  if n = 0 then ['0'] else (natHexRev n n).reverse

/-- Model of printf `%0wX`: the hex rendering of `n`, left-padded with `0`
to a minimum of `w` characters. -/
def hexPad (w n : Nat) : List Char :=
  List.replicate (w - (natHex n).length) '0' ++ natHex n

/-- Numeric value accumulated by scanf `%x` over a digit string
(most significant digit first). -/
def hexVal (ds : List Char) : Nat :=
  ds.foldl (fun a c => a * 16 + hexDigitVal c) 0

/-- File contents written by the element loop of `dump_to_hex_file` when the
file opens: per element one line, `"%02X\n"` of `(uint8_t)d[i]` for width 8,
`"%08X\n"` of `(uint32_t)d[i]` for width 32, nothing for other widths. -/
def dumpContent (values : List Int) (width : Nat) : List Char :=
  if width = 8 then
    values.foldl (fun acc v => acc ++ (hexPad 2 (toBits 8 v) ++ ['\n'])) []
  else if width = 32 then
    values.foldl (fun acc v => acc ++ (hexPad 8 (toBits 32 v) ++ ['\n'])) []
  else []

/-- Observable effects of one `dump_to_hex_file` call: the file contents (or
`none` when nothing was written), the console output of its `printf` calls,
and the value returned to the caller (the C function returns `void`). -/
structure DumpResult where
  file : Option (List Char)
  console : String
  ret : Unit

/-- C function `dump_to_hex_file`.  `openOk` models whether
`fopen(filename, "w")` succeeds.  On failure it prints an error line and
returns; on success it writes `dumpContent` and prints a summary line. -/
def dump_to_hex_file (openOk : Bool) (filename : String) (values : List Int)
    (width : Nat) : DumpResult :=
  if openOk then
    { file := some (dumpContent values width)
      console := "Dumped " ++ toString values.length ++ " elements to " ++ filename ++ "\n"
      ret := () }
  else
    { file := none
      console := "Error: Cannot open file " ++ filename ++ "\n"
      ret := () }

/-- Leading whitespace skipping performed by scanf `%x`. -/
def skipWs : List Char → List Char
  | [] => []
  | c :: cs => if isWsC c then skipWs cs else c :: cs

/-- One scanf `%x` conversion on the remaining file contents: skip
whitespace, then read a maximal nonempty run of hex digits and return its
value and the unread rest; `none` is a matching failure (malformed token or
end of file).  Sign characters and the `0x` prefix, which no file written
by this program contains, are not modelled. -/
def scanHexToken (cs : List Char) : Option (Nat × List Char) :=
  if ((skipWs cs).takeWhile isHexDigitC).isEmpty then none
  else some (hexVal ((skipWs cs).takeWhile isHexDigitC), (skipWs cs).dropWhile isHexDigitC)

/-- Greedy repetition of `scanHexToken` until the first failure: the
sequence of token values a caller looping on `fscanf(fp, "%x", &val) == 1`
would observe.  The first argument is structural fuel; `parseAllHex`
supplies `cs.length`, which is always sufficient because every successful
token consumes at least one character. -/
def parseAllHexF : Nat → List Char → List Nat
  | 0, _ => []
  | fuel + 1, cs =>
    match scanHexToken cs with
    | some (v, rest) => v :: parseAllHexF fuel rest
    | none => []

/-- All token values scanf `%x` can read from `cs` before the first
matching failure. -/
def parseAllHex (cs : List Char) : List Nat :=
  parseAllHexF cs.length cs

/-- The element loop of `load_from_hex_file`:
`while (count < len && fscanf(fp, "%x", &val) == 1) d[count++] = (intW_t)val;`.
The first argument `remaining` is `len - count`, the number of loop
iterations still permitted by the `count < len` test. -/
def scanHexLoop (w : Nat) : Nat → List Char → (Nat → Int) → Nat → (Nat → Int) × Nat
  | 0, _, buf, count => (buf, count)
  | remaining + 1, cs, buf, count =>
    match scanHexToken cs with
    | some (v, rest) =>
        scanHexLoop w remaining rest (Function.update buf count (toSigned w v)) (count + 1)
    | none => (buf, count)

/-- C function `load_from_hex_file`.  `file` is `none` when
`fopen(filename, "r")` fails (the function then returns `-1` and leaves the
buffer untouched); otherwise it is the file contents.  Returns the updated
buffer and the returned `int` (the count of elements stored, or `0` for a
width other than 8 and 32). -/
def load_from_hex_file (file : Option (List Char)) (buf : Nat → Int) (len : Nat)
    (width : Nat) : (Nat → Int) × Int :=
  match file with
  | none => (buf, -1)
  | some cs =>
    if width = 8 then
      let r := scanHexLoop 8 len cs buf 0
      (r.1, (r.2 : Int))
    else if width = 32 then
      let r := scanHexLoop 32 len cs buf 0
      (r.1, (r.2 : Int))
    else (buf, 0)

/-- C function `generate_random_i8`: `srand(seed)` replaces the libc
generator state (whatever it was), then `len` draws
`data[i] = (int8_t)((rand() % 256) - 128)` fill the buffer in order.  The
generator is abstract: `srandFn` models `srand`, `randFn` models one `rand`
call, `gstate` is the global generator state before the call.  Returns the
generated list and the global state after the call. -/
def generate_random_i8 {σ : Type} (srandFn : Nat → σ) (randFn : σ → Nat × σ)
    (gstate : σ) (len : Nat) (seed : Nat) : List Int × σ :=
  (List.range len).foldl
    (fun acc _ =>
      (acc.1 ++ [(((randFn acc.2).1 % 256 : Nat) : Int) - 128], (randFn acc.2).2))
    ([], srandFn seed)

/-- C function `generate_sequential_i8`: `data[i] = start + i` with `int8_t`
wrap-around on the cast of the `int` sum. -/
def generate_sequential_i8 (len : Nat) (start : Int) : List Int :=
  (List.range len).map (fun i => toSigned 8 (toBits 32 (start + i)))

/-- Flattened iteration space of the four nested loops of `ref_gemv_tiled`,
in source traversal order: `(o, i)` pairs. -/
def gemvTiledPairs (K M : Nat) : List (Nat × Nat) :=
  (tileStarts M SUBARRAY_ROWS).flatMap (fun o_tile =>
    (tileStarts K SUBARRAY_COLS).flatMap (fun i_tile =>
      (tileRange o_tile SUBARRAY_ROWS M).flatMap (fun o =>
        (tileRange i_tile SUBARRAY_COLS K).map (fun i => (o, i)))))

/-- Flattened iteration space of the five nested loops of `ref_gemm_tiled`,
in source traversal order: `(m, n, k)` triples. -/
def gemmTiledTriples (M K N : Nat) : List (Nat × Nat × Nat) :=
  (tileStarts M SUBARRAY_ROWS).flatMap (fun m_tile =>
    (tileStarts K SUBARRAY_COLS).flatMap (fun k_tile =>
      (List.range N).flatMap (fun n =>
        (tileRange m_tile SUBARRAY_ROWS M).flatMap (fun m =>
          (tileRange k_tile SUBARRAY_COLS K).map (fun k => (m, n, k))))))

theorem foldl_add_eq_sum {α : Type} (g : α → Int) :
    ∀ (l : List α) (a : Int), l.foldl (fun s x => s + g x) a = a + (l.map g).sum
  | [], a => by simp
  | x :: l, a => by
    simp only [List.foldl_cons, List.map_cons, List.sum_cons]
    rw [foldl_add_eq_sum g l (a + g x), add_assoc]

theorem foldl_flatMap_eq {α β γ : Type} (f : α → β → α) (g : γ → List β) :
    ∀ (l : List γ) (a : α),
      (l.flatMap g).foldl f a = l.foldl (fun acc c => (g c).foldl f acc) a
  | [], a => by simp
  | c :: l, a => by
    simp only [List.flatMap_cons, List.foldl_append, List.foldl_cons]
    exact foldl_flatMap_eq f g l _

theorem foldl_append_eq_flatMap {α β : Type} (g : α → List β) :
    ∀ (l : List α) (acc : List β), l.foldl (fun a x => a ++ g x) acc = acc ++ l.flatMap g
  | [], acc => by simp
  | x :: l, acc => by
    simp only [List.foldl_cons, List.flatMap_cons]
    rw [foldl_append_eq_flatMap g l (acc ++ g x), List.append_assoc]

theorem foldl_update_add_apply {β : Type} (key : β → Nat) (f : β → Int) :
    ∀ (ps : List β) (out : Nat → Int) (j : Nat),
      (ps.foldl (fun o p => Function.update o (key p) (o (key p) + f p)) out) j
        = out j + ((ps.filter (fun p => key p == j)).map f).sum
  | [], out, j => by simp
  | p :: ps, out, j => by
    simp only [List.foldl_cons, List.filter_cons]
    rw [foldl_update_add_apply key f ps]
    by_cases h : key p = j
    · subst h
      rw [if_pos (beq_self_eq_true (key p)), List.map_cons, List.sum_cons]
      have h2 : Function.update out (key p) (out (key p) + f p) (key p)
          = out (key p) + f p := by
        rw [Function.update_apply, if_pos rfl]
      rw [h2, add_assoc]
    · have hb : (key p == j) = false := beq_eq_false_iff_ne.mpr h
      rw [hb, if_neg (by simp : ¬(false = true))]
      have h2 : Function.update out (key p) (out (key p) + f p) j = out j := by
        rw [Function.update_apply, if_neg (fun he => h he.symm)]
      rw [h2]

theorem foldl_update_set_of_filter_nil {β : Type} (key : β → Nat) (v : β → Int) :
    ∀ (ps : List β) (c : Nat → Int) (j : Nat),
      ps.filter (fun p => key p == j) = [] →
      (ps.foldl (fun c p => Function.update c (key p) (v p)) c) j = c j
  | [], c, j, _ => rfl
  | p :: ps, c, j, h => by
    simp only [List.filter_cons] at h
    by_cases hk : key p = j
    · rw [if_pos (beq_iff_eq.mpr hk)] at h
      exact absurd h (by simp)
    · have hb : (key p == j) = false := beq_eq_false_iff_ne.mpr hk
      rw [hb] at h
      simp only [Bool.false_eq_true, if_neg] at h
      simp only [List.foldl_cons]
      rw [foldl_update_set_of_filter_nil key v ps _ j h, Function.update_apply,
        if_neg (fun he => hk he.symm)]

theorem foldl_update_set_of_filter_single {β : Type} (key : β → Nat) (v : β → Int) :
    ∀ (ps : List β) (c : Nat → Int) (j : Nat) (p0 : β),
      ps.filter (fun p => key p == j) = [p0] →
      (ps.foldl (fun c p => Function.update c (key p) (v p)) c) j = v p0
  | [], c, j, p0, h => by exact absurd h (by simp)
  | p :: ps, c, j, p0, h => by
    simp only [List.filter_cons] at h
    by_cases hk : key p = j
    · rw [if_pos (beq_iff_eq.mpr hk)] at h
      have hp : p = p0 := (List.cons_eq_cons.mp h).1
      have hnil : ps.filter (fun q => key q == j) = [] := (List.cons_eq_cons.mp h).2
      simp only [List.foldl_cons]
      rw [foldl_update_set_of_filter_nil key v ps _ j hnil, ← hk,
        Function.update_apply, if_pos rfl, hp]
    · have hb : (key p == j) = false := beq_eq_false_iff_ne.mpr hk
      rw [hb] at h
      simp only [Bool.false_eq_true, if_neg] at h
      simp only [List.foldl_cons]
      exact foldl_update_set_of_filter_single key v ps _ j p0 h

theorem filter_flatMap_comm {α β : Type} (g : α → List β) (p : β → Bool) :
    ∀ (l : List α), (l.flatMap g).filter p = l.flatMap (fun x => (g x).filter p)
  | [] => rfl
  | x :: l => by
    simp only [List.flatMap_cons, List.filter_append]
    rw [filter_flatMap_comm g p l]

theorem flatMap_ite_single {α : Type} (o : Nat) (X : Nat → List α) :
    ∀ (L : List Nat), L.Nodup →
      (L.flatMap (fun x => if x = o then X x else [])) = if o ∈ L then X o else []
  | [], _ => by simp
  | b :: L, hnd => by
    rcases List.nodup_cons.mp hnd with ⟨hb, hnd2⟩
    simp only [List.flatMap_cons]
    by_cases h : b = o
    · subst h
      have h2 : L.flatMap (fun x => if x = b then X x else []) = [] := by
        rw [List.flatMap_eq_nil_iff]
        intro x hx
        rw [if_neg]
        intro he
        exact hb (he ▸ hx)
      rw [if_pos rfl, h2, List.append_nil, if_pos (List.mem_cons_self b L)]
    · rw [if_neg h, List.nil_append, flatMap_ite_single o X L hnd2]
      by_cases ho : o ∈ L
      · rw [if_pos ho, if_pos (List.mem_cons_of_mem b ho)]
      · have hno : o ∉ b :: L := by
          intro hc
          rcases List.mem_cons.mp hc with he | hin
          · exact h he.symm
          · exact ho hin
        rw [if_neg ho, if_neg hno]

theorem flatMap_ite_mem {β α : Type} (g : β → List Nat) (o : Nat) (X : List α) :
    ∀ (L : List β), (L.flatMap g).Nodup → o ∈ L.flatMap g →
      (L.flatMap (fun b => if o ∈ g b then X else [])) = X
  | [], _, hm => by exact absurd hm (by simp)
  | b :: L, hnd, hm => by
    simp only [List.flatMap_cons] at hnd hm ⊢
    rcases List.nodup_append.mp hnd with ⟨_, hnd2, hdisj⟩
    by_cases h : o ∈ g b
    · have h2 : L.flatMap (fun b2 => if o ∈ g b2 then X else []) = [] := by
        rw [List.flatMap_eq_nil_iff]
        intro x hx
        rw [if_neg]
        intro ho2
        exact hdisj h (List.mem_flatMap.mpr ⟨x, hx, ho2⟩)
      rw [if_pos h, h2, List.append_nil]
    · have hm2 : o ∈ L.flatMap g := by
        rcases List.mem_append.mp hm with h1 | h2
        · exact absurd h1 h
        · exact h2
      rw [if_neg h, List.nil_append]
      exact flatMap_ite_mem g o X L hnd2 hm2

theorem flatMap_ite_const {α β : Type} (l : List α) (c : Prop) [Decidable c]
    (f : α → List β) :
    (l.flatMap (fun x => if c then f x else [])) = if c then l.flatMap f else [] := by
  by_cases h : c
  · simp only [if_pos h]
  · simp only [if_neg h, List.flatMap_eq_nil_iff, implies_true]

theorem tileRange_flatMap_range (t dim : Nat) :
    ∀ n : Nat,
      (((List.range n).map (fun i => i * t)).flatMap (fun s => tileRange s t dim))
        = List.range (min (n * t) dim)
  | 0 => by simp
  | n + 1 => by
    rw [List.range_succ, List.map_append, List.flatMap_append,
      tileRange_flatMap_range t dim n]
    simp only [List.map_cons, List.map_nil, List.flatMap_cons, List.flatMap_nil,
      List.append_nil]
    unfold tileRange
    by_cases h : dim ≤ n * t
    · have h1 : min (n * t) dim = dim := Nat.min_eq_right h
      have h2 : min (n * t + t) dim = dim := Nat.min_eq_right (le_trans h (Nat.le_add_right _ _))
      have h3 : min ((n + 1) * t) dim = dim := by
        rw [Nat.succ_mul]
        exact h2
      rw [h1, h3, h2, Nat.sub_eq_zero_of_le h, List.range'_zero, List.append_nil]
    · push_neg at h
      have h1 : min (n * t) dim = n * t := Nat.min_eq_left (Nat.le_of_lt h)
      have h4 : n * t ≤ min (n * t + t) dim := by
        rcases Nat.le_total (n * t + t) dim with hc | hc
        · rw [Nat.min_eq_left hc]; exact Nat.le_add_right _ _
        · rw [Nat.min_eq_right hc]; exact Nat.le_of_lt h
      rw [h1, List.range_eq_range', List.range_eq_range']
      have h5 := List.range'_append 0 (n * t) (min (n * t + t) dim - n * t) 1
      simp only [Nat.one_mul, Nat.zero_add] at h5
      rw [h5]
      congr 1
      rw [Nat.succ_mul]
      omega

theorem tileStarts_cover (t dim : Nat) (ht : 0 < t) :
    (tileStarts dim t).flatMap (fun s => tileRange s t dim) = List.range dim := by
  unfold tileStarts
  rw [tileRange_flatMap_range t dim]
  congr 1
  have key : dim ≤ ((dim + t - 1) / t) * t := by
    conv_rhs => rw [Nat.mul_comm]
    generalize hX : t * ((dim + t - 1) / t) = X
    have h := Nat.div_add_mod (dim + t - 1) t
    rw [hX] at h
    have hr := Nat.mod_lt (dim + t - 1) ht
    generalize hr2 : (dim + t - 1) % t = r at h hr
    omega
  exact Nat.min_eq_right key

theorem filter_beq_range {o M : Nat} (ho : o < M) :
    (List.range M).filter (fun x => x == o) = [o] := by
  have h1 : (List.range M).filter (fun x => x == o)
      = (List.range M).filter (fun x => decide (x = o)) := by
    apply List.filter_congr
    intro x _
    by_cases h : x = o
    · subst h; simp
    · simp [h]
  rw [h1, List.filter_eq,
    List.count_eq_one_of_mem (List.nodup_range M) (List.mem_range.mpr ho)]
  rfl

theorem zeroInit_apply (output : Nat → Int) {M o : Nat} (ho : o < M) :
    ((List.range M).foldl (fun out x => Function.update out x 0) output) o = 0 :=
  foldl_update_set_of_filter_single (fun x => x) (fun _ => 0) (List.range M) output o o
    (filter_beq_range ho)

theorem ref_gemv_tiled_eq_pairs (input weights output : Nat → Int) (K M : Nat) :
    ref_gemv_tiled input weights output K M =
      (gemvTiledPairs K M).foldl
        (fun out p => Function.update out p.1 (out p.1 + weights (p.1 * K + p.2) * input p.2))
        ((List.range M).foldl (fun out o => Function.update out o 0) output) := by
  simp only [ref_gemv_tiled, gemvTiledPairs, foldl_flatMap_eq, List.foldl_map]

theorem gemvTiledPairs_filter {K M o : Nat} (ho : o < M) :
    (gemvTiledPairs K M).filter (fun p => p.1 == o) = (List.range K).map (fun i => (o, i)) := by
  unfold gemvTiledPairs
  rw [filter_flatMap_comm]
  have inner : ∀ o_tile,
      ((tileStarts K SUBARRAY_COLS).flatMap (fun i_tile =>
        (tileRange o_tile SUBARRAY_ROWS M).flatMap (fun o2 =>
          (tileRange i_tile SUBARRAY_COLS K).map (fun i => (o2, i))))).filter
            (fun p => p.1 == o)
        = if o ∈ tileRange o_tile SUBARRAY_ROWS M
          then (List.range K).map (fun i => (o, i)) else [] := by
    intro o_tile
    rw [filter_flatMap_comm]
    have innermost : ∀ i_tile,
        ((tileRange o_tile SUBARRAY_ROWS M).flatMap (fun o2 =>
          (tileRange i_tile SUBARRAY_COLS K).map (fun i => (o2, i)))).filter
            (fun p => p.1 == o)
          = if o ∈ tileRange o_tile SUBARRAY_ROWS M
            then (tileRange i_tile SUBARRAY_COLS K).map (fun i => (o, i)) else [] := by
      intro i_tile
      rw [filter_flatMap_comm]
      have hcongr : (tileRange o_tile SUBARRAY_ROWS M).flatMap (fun o2 =>
            ((tileRange i_tile SUBARRAY_COLS K).map (fun i => (o2, i))).filter
              (fun p => p.1 == o))
          = (tileRange o_tile SUBARRAY_ROWS M).flatMap (fun o2 =>
            if o2 = o then (tileRange i_tile SUBARRAY_COLS K).map (fun i => (o2, i)) else []) := by
        apply List.flatMap_congr
        intro o2 _
        rw [List.filter_map]
        by_cases h : o2 = o
        · rw [if_pos h]
          have hco : ((fun p : Nat × Nat => p.1 == o) ∘ fun i : Nat => (o2, i))
              = (fun _ : Nat => true) := by
            funext i
            simp only [Function.comp_apply]
            exact beq_iff_eq.mpr h
          rw [hco, List.filter_true]
        · rw [if_neg h]
          have hco : ((fun p : Nat × Nat => p.1 == o) ∘ fun i : Nat => (o2, i))
              = (fun _ : Nat => false) := by
            funext i
            simp only [Function.comp_apply]
            exact beq_eq_false_iff_ne.mpr h
          rw [hco, List.filter_false, List.map_nil]
      rw [hcongr,
        flatMap_ite_single o
          (fun o2 => (tileRange i_tile SUBARRAY_COLS K).map (fun i => (o2, i)))
          (tileRange o_tile SUBARRAY_ROWS M) (List.nodup_range' _ _)]
    have hcg2 : (tileStarts K SUBARRAY_COLS).flatMap (fun i_tile =>
          ((tileRange o_tile SUBARRAY_ROWS M).flatMap (fun o2 =>
            (tileRange i_tile SUBARRAY_COLS K).map (fun i => (o2, i)))).filter
              (fun p => p.1 == o))
        = (tileStarts K SUBARRAY_COLS).flatMap (fun i_tile =>
          if o ∈ tileRange o_tile SUBARRAY_ROWS M
          then (tileRange i_tile SUBARRAY_COLS K).map (fun i => (o, i)) else []) := by
      apply List.flatMap_congr
      intro i_tile _
      exact innermost i_tile
    rw [hcg2, flatMap_ite_const]
    by_cases hmem : o ∈ tileRange o_tile SUBARRAY_ROWS M
    · rw [if_pos hmem, if_pos hmem]
      rw [← List.map_flatMap, tileStarts_cover SUBARRAY_COLS K (by decide)]
    · rw [if_neg hmem, if_neg hmem]
  have hcg3 : (tileStarts M SUBARRAY_ROWS).flatMap (fun o_tile =>
        ((tileStarts K SUBARRAY_COLS).flatMap (fun i_tile =>
          (tileRange o_tile SUBARRAY_ROWS M).flatMap (fun o2 =>
            (tileRange i_tile SUBARRAY_COLS K).map (fun i => (o2, i))))).filter
              (fun p => p.1 == o))
      = (tileStarts M SUBARRAY_ROWS).flatMap (fun o_tile =>
        if o ∈ tileRange o_tile SUBARRAY_ROWS M
        then (List.range K).map (fun i => (o, i)) else []) := by
    apply List.flatMap_congr
    intro o_tile _
    exact inner o_tile
  rw [hcg3]
  apply flatMap_ite_mem
  · rw [tileStarts_cover SUBARRAY_ROWS M (by decide)]
    exact List.nodup_range M
  · rw [tileStarts_cover SUBARRAY_ROWS M (by decide)]
    exact List.mem_range.mpr ho

theorem gemv_tiled_apply (input weights output : Nat → Int) (K M : Nat) {o : Nat}
    (ho : o < M) :
    ref_gemv_tiled input weights output K M o = gemvDirectSum input weights K o := by
  rw [ref_gemv_tiled_eq_pairs]
  rw [foldl_update_add_apply (fun p => p.1)
    (fun p => weights (p.1 * K + p.2) * input p.2) (gemvTiledPairs K M)]
  rw [zeroInit_apply output ho, gemvTiledPairs_filter ho, List.map_map, zero_add]
  rfl

theorem ref_gemv_apply (layer : GemvLayer) {o : Nat} (ho : o < layer.output_dim) :
    ref_gemv layer o
      = gemvDirectSum layer.input layer.weights layer.input_dim o + layer.bias o := by
  unfold ref_gemv
  rw [foldl_update_set_of_filter_single (fun x => x)
    (fun o2 => ((List.range layer.input_dim).foldl
      (fun sum i => sum + layer.weights (o2 * layer.input_dim + i) * layer.input i) 0)
      + layer.bias o2)
    (List.range layer.output_dim) layer.output o o (filter_beq_range ho)]
  rw [foldl_add_eq_sum, zero_add]
  rfl

theorem rowmajor_inj {N m m2 n n2 : Nat} (hn : n < N) (hn2 : n2 < N) :
    m2 * N + n2 = m * N + n ↔ (m2 = m ∧ n2 = n) := by
  constructor
  · intro h
    have hN : 0 < N := Nat.lt_of_le_of_lt (Nat.zero_le n) hn
    have e1 : (m2 * N + n2) / N = m2 := by
      rw [Nat.mul_comm m2 N, Nat.mul_add_div hN, Nat.div_eq_of_lt hn2, Nat.add_zero]
    have e2 : (m * N + n) / N = m := by
      rw [Nat.mul_comm m N, Nat.mul_add_div hN, Nat.div_eq_of_lt hn, Nat.add_zero]
    have hm : m2 = m := by rw [← e1, ← e2, h]
    subst hm
    exact ⟨rfl, Nat.add_left_cancel h⟩
  · rintro ⟨h1, h2⟩
    rw [h1, h2]

theorem gemmDirectPairs_filter {M N m n : Nat} (hm : m < M) (hn : n < N) :
    ((List.range M).flatMap (fun m2 => (List.range N).map (fun n2 => (m2, n2)))).filter
        (fun p => p.1 * N + p.2 == m * N + n)
      = [(m, n)] := by
  rw [filter_flatMap_comm]
  have hcg : (List.range M).flatMap (fun m2 =>
        ((List.range N).map (fun n2 => (m2, n2))).filter
          (fun p => p.1 * N + p.2 == m * N + n))
      = (List.range M).flatMap (fun m2 => if m2 = m then [(m2, n)] else []) := by
    apply List.flatMap_congr
    intro m2 _
    rw [List.filter_map]
    have hpred : ∀ x ∈ List.range N,
        (((fun p : Nat × Nat => p.1 * N + p.2 == m * N + n) ∘ fun n2 : Nat => (m2, n2)) x)
          = (decide (m2 = m) && (x == n)) := by
      intro x hx
      have hxN := List.mem_range.mp hx
      simp only [Function.comp_apply]
      by_cases h1 : m2 = m
      · subst h1
        by_cases h2 : x = n
        · subst h2; simp
        · have hne : ¬(m2 * N + x = m2 * N + n) := fun he => h2 (Nat.add_left_cancel he)
          simp [hne, h2]
      · have hne : ¬(m2 * N + x = m * N + n) :=
          fun he => h1 ((rowmajor_inj hn hxN).mp he).1
        simp [hne, h1]
    rw [List.filter_congr hpred]
    by_cases h1 : m2 = m
    · subst h1
      have : (fun x => decide (m2 = m2) && (x == n)) = (fun x : Nat => x == n) := by
        funext x
        simp
      rw [this, filter_beq_range hn, List.map_cons, List.map_nil, if_pos rfl]
    · have : (fun x => decide (m2 = m) && (x == n)) = (fun _ : Nat => false) := by
        funext x
        simp [h1]
      rw [this, List.filter_false, List.map_nil, if_neg h1]
  rw [hcg, flatMap_ite_single m (fun m2 => [(m2, n)]) (List.range M) (List.nodup_range M),
    if_pos (List.mem_range.mpr hm)]

theorem ref_gemm_apply (layer : GemmLayer) {m n : Nat} (hm : m < layer.M)
    (hn : n < layer.N) :
    ref_gemm layer (m * layer.N + n)
      = gemmDirectSum layer.A layer.B layer.K layer.N m n := by
  have hflat : ((List.range layer.M).flatMap (fun m2 =>
        (List.range layer.N).map (fun n2 => (m2, n2)))).foldl
          (fun c p => Function.update c (p.1 * layer.N + p.2)
            ((List.range layer.K).foldl
              (fun sum k => sum + layer.A (p.1 * layer.K + k) * layer.B (k * layer.N + p.2)) 0))
          layer.C
      = ref_gemm layer := by
    simp only [ref_gemm, foldl_flatMap_eq, List.foldl_map]
  rw [← hflat]
  rw [foldl_update_set_of_filter_single (fun p : Nat × Nat => p.1 * layer.N + p.2)
    (fun p => (List.range layer.K).foldl
      (fun sum k => sum + layer.A (p.1 * layer.K + k) * layer.B (k * layer.N + p.2)) 0)
    _ layer.C (m * layer.N + n) (m, n) (gemmDirectPairs_filter hm hn)]
  rw [foldl_add_eq_sum, zero_add]
  rfl

theorem ref_gemm_tiled_eq_triples (a b c : Nat → Int) (M K N : Nat) :
    ref_gemm_tiled a b c M K N =
      (gemmTiledTriples M K N).foldl
        (fun cc t => Function.update cc (t.1 * N + t.2.1)
          (cc (t.1 * N + t.2.1) + a (t.1 * K + t.2.2) * b (t.2.2 * N + t.2.1)))
        ((List.range (M * N)).foldl (fun cc j => Function.update cc j 0) c) := by
  simp only [ref_gemm_tiled, gemmTiledTriples, foldl_flatMap_eq, List.foldl_map]

theorem gemmTiledTriples_filter {M K N m n : Nat} (hm : m < M) (hn : n < N) :
    (gemmTiledTriples M K N).filter (fun t => t.1 * N + t.2.1 == m * N + n)
      = (List.range K).map (fun k => (m, n, k)) := by
  unfold gemmTiledTriples
  rw [filter_flatMap_comm]
  have level_mtile : ∀ m_tile,
      ((tileStarts K SUBARRAY_COLS).flatMap (fun k_tile =>
        (List.range N).flatMap (fun n2 =>
          (tileRange m_tile SUBARRAY_ROWS M).flatMap (fun m2 =>
            (tileRange k_tile SUBARRAY_COLS K).map (fun k => (m2, n2, k)))))).filter
              (fun t => t.1 * N + t.2.1 == m * N + n)
        = if m ∈ tileRange m_tile SUBARRAY_ROWS M
          then (List.range K).map (fun k => (m, n, k)) else [] := by
    intro m_tile
    rw [filter_flatMap_comm]
    have level_ktile : ∀ k_tile,
        ((List.range N).flatMap (fun n2 =>
          (tileRange m_tile SUBARRAY_ROWS M).flatMap (fun m2 =>
            (tileRange k_tile SUBARRAY_COLS K).map (fun k => (m2, n2, k))))).filter
              (fun t => t.1 * N + t.2.1 == m * N + n)
          = if m ∈ tileRange m_tile SUBARRAY_ROWS M
            then (tileRange k_tile SUBARRAY_COLS K).map (fun k => (m, n, k)) else [] := by
      intro k_tile
      rw [filter_flatMap_comm]
      have level_n2 : ∀ n2 ∈ List.range N,
          ((tileRange m_tile SUBARRAY_ROWS M).flatMap (fun m2 =>
            (tileRange k_tile SUBARRAY_COLS K).map (fun k => (m2, n2, k)))).filter
              (fun t => t.1 * N + t.2.1 == m * N + n)
            = if n2 = n
              then (if m ∈ tileRange m_tile SUBARRAY_ROWS M
                then (tileRange k_tile SUBARRAY_COLS K).map (fun k => (m, n2, k)) else [])
              else [] := by
        intro n2 hn2mem
        have hn2 := List.mem_range.mp hn2mem
        rw [filter_flatMap_comm]
        have level_m2 : ∀ m2,
            ((tileRange k_tile SUBARRAY_COLS K).map (fun k => (m2, n2, k))).filter
                (fun t => t.1 * N + t.2.1 == m * N + n)
              = if n2 = n
                then (if m2 = m
                  then (tileRange k_tile SUBARRAY_COLS K).map (fun k => (m2, n2, k)) else [])
                else [] := by
          intro m2
          rw [List.filter_map]
          by_cases h : m2 * N + n2 = m * N + n
          · rcases (rowmajor_inj hn hn2).mp h with ⟨h1, h2⟩
            have hco : ((fun t : Nat × Nat × Nat => t.1 * N + t.2.1 == m * N + n)
                ∘ fun k : Nat => (m2, n2, k)) = (fun _ : Nat => true) := by
              funext k
              simp only [Function.comp_apply]
              exact beq_iff_eq.mpr h
            rw [hco, List.filter_true, if_pos h2, if_pos h1]
          · have hco : ((fun t : Nat × Nat × Nat => t.1 * N + t.2.1 == m * N + n)
                ∘ fun k : Nat => (m2, n2, k)) = (fun _ : Nat => false) := by
              funext k
              simp only [Function.comp_apply]
              exact beq_eq_false_iff_ne.mpr h
            rw [hco, List.filter_false, List.map_nil]
            have hnot : ¬(n2 = n ∧ m2 = m) := by
              rintro ⟨h1, h2⟩
              exact h ((rowmajor_inj hn hn2).mpr ⟨h2, h1⟩)
            by_cases h1 : n2 = n
            · rw [if_pos h1, if_neg (fun h2 => hnot ⟨h1, h2⟩)]
            · rw [if_neg h1]
        rw [List.flatMap_congr (fun m2 _ => level_m2 m2)]
        rw [flatMap_ite_const]
        by_cases h1 : n2 = n
        · rw [if_pos h1, if_pos h1,
            flatMap_ite_single m
              (fun m2 => (tileRange k_tile SUBARRAY_COLS K).map (fun k => (m2, n2, k)))
              (tileRange m_tile SUBARRAY_ROWS M) (List.nodup_range' _ _)]
        · rw [if_neg h1, if_neg h1]
      rw [List.flatMap_congr level_n2]
      rw [flatMap_ite_single n
        (fun n2 => if m ∈ tileRange m_tile SUBARRAY_ROWS M
          then (tileRange k_tile SUBARRAY_COLS K).map (fun k => (m, n2, k)) else [])
        (List.range N) (List.nodup_range N), if_pos (List.mem_range.mpr hn)]
    rw [List.flatMap_congr (fun k_tile _ => level_ktile k_tile)]
    rw [flatMap_ite_const]
    by_cases hmem : m ∈ tileRange m_tile SUBARRAY_ROWS M
    · rw [if_pos hmem, if_pos hmem, ← List.map_flatMap,
        tileStarts_cover SUBARRAY_COLS K (by decide)]
    · rw [if_neg hmem, if_neg hmem]
  rw [List.flatMap_congr (fun m_tile _ => level_mtile m_tile)]
  apply flatMap_ite_mem
  · rw [tileStarts_cover SUBARRAY_ROWS M (by decide)]
    exact List.nodup_range M
  · rw [tileStarts_cover SUBARRAY_ROWS M (by decide)]
    exact List.mem_range.mpr hm

theorem gemm_tiled_apply (a b c : Nat → Int) (M K N : Nat) {m n : Nat}
    (hm : m < M) (hn : n < N) :
    ref_gemm_tiled a b c M K N (m * N + n) = gemmDirectSum a b K N m n := by
  rw [ref_gemm_tiled_eq_triples]
  rw [foldl_update_add_apply (fun t : Nat × Nat × Nat => t.1 * N + t.2.1)
    (fun t => a (t.1 * K + t.2.2) * b (t.2.2 * N + t.2.1)) (gemmTiledTriples M K N)]
  have hj : m * N + n < M * N := by
    have h1 : m * N + n < (m + 1) * N := by
      rw [Nat.succ_mul]
      omega
    have h2 : (m + 1) * N ≤ M * N := Nat.mul_le_mul_right N (Nat.succ_le_of_lt hm)
    omega
  rw [zeroInit_apply c hj, gemmTiledTriples_filter hm hn, List.map_map, zero_add]
  rfl

theorem hexDigitChar_props : ∀ d : Nat, d < 16 →
    isHexDigitC (hexDigitChar d) = true ∧ isWsC (hexDigitChar d) = false
    ∧ isUpperHexC (hexDigitChar d) = true ∧ hexDigitVal (hexDigitChar d) = d := by
  decide

theorem hexVal_append_singleton (l : List Char) (c : Char) :
    hexVal (l ++ [c]) = hexVal l * 16 + hexDigitVal c := by
  unfold hexVal
  rw [List.foldl_append]
  rfl

theorem natHexRev_val : ∀ (fuel n : Nat), n ≤ fuel →
    hexVal ((natHexRev fuel n).reverse) = n
  | 0, n, h => by
    have : n = 0 := Nat.le_zero.mp h
    subst this
    rfl
  | fuel + 1, n, h => by
    by_cases h0 : n = 0
    · subst h0
      simp [natHexRev, hexVal]
    · have hdiv : n / 16 ≤ fuel := by
        have h1 : n / 16 < n := Nat.div_lt_self (Nat.pos_of_ne_zero h0) (by decide)
        omega
      simp only [natHexRev, if_neg h0, List.reverse_cons]
      rw [hexVal_append_singleton, natHexRev_val fuel (n / 16) hdiv,
        (hexDigitChar_props (n % 16) (Nat.mod_lt n (by decide))).2.2.2]
      omega

theorem natHex_val (n : Nat) : hexVal (natHex n) = n := by
  unfold natHex
  by_cases h0 : n = 0
  · subst h0
    rfl
  · rw [if_neg h0]
    exact natHexRev_val n n (Nat.le_refl n)

theorem hexVal_zero_cons (l : List Char) : hexVal ('0' :: l) = hexVal l := by
  unfold hexVal
  rfl

theorem hexVal_replicate_zero : ∀ (z : Nat) (l : List Char),
    hexVal (List.replicate z '0' ++ l) = hexVal l
  | 0, l => rfl
  | z + 1, l => by
    rw [List.replicate_succ, List.cons_append, hexVal_zero_cons,
      hexVal_replicate_zero z l]

theorem hexPad_val (w n : Nat) : hexVal (hexPad w n) = n := by
  unfold hexPad
  rw [hexVal_replicate_zero, natHex_val]

theorem natHexRev_chars : ∀ (fuel n : Nat) (c : Char), c ∈ natHexRev fuel n →
    isHexDigitC c = true ∧ isWsC c = false ∧ isUpperHexC c = true
  | 0, n, c, h => absurd h (by simp [natHexRev])
  | fuel + 1, n, c, h => by
    by_cases h0 : n = 0
    · subst h0
      exact absurd h (by simp [natHexRev])
    · rw [natHexRev, if_neg h0] at h
      rcases List.mem_cons.mp h with he | hm
      · subst he
        have hp := hexDigitChar_props (n % 16) (Nat.mod_lt n (by decide))
        exact ⟨hp.1, hp.2.1, hp.2.2.1⟩
      · exact natHexRev_chars fuel (n / 16) c hm

theorem hexPad_chars (w n : Nat) (c : Char) (h : c ∈ hexPad w n) :
    isHexDigitC c = true ∧ isWsC c = false ∧ isUpperHexC c = true := by
  unfold hexPad at h
  rcases List.mem_append.mp h with hz | hn
  · have : c = '0' := List.eq_of_mem_replicate hz
    subst this
    exact ⟨by decide, by decide, by decide⟩
  · unfold natHex at hn
    by_cases h0 : n = 0
    · rw [if_pos h0] at hn
      have : c = '0' := by
        rcases List.mem_singleton.mp hn with h2
        exact h2
      subst this
      exact ⟨by decide, by decide, by decide⟩
    · rw [if_neg h0] at hn
      exact natHexRev_chars n n c (List.mem_reverse.mp hn)

theorem natHexRev_length : ∀ (fuel n k : Nat), n < 16 ^ k →
    (natHexRev fuel n).length ≤ k
  | 0, n, k, _ => by simp [natHexRev]
  | fuel + 1, n, k, h => by
    by_cases h0 : n = 0
    · subst h0
      simp [natHexRev]
    · rw [natHexRev, if_neg h0, List.length_cons]
      have hk : k ≠ 0 := by
        intro hk0
        subst hk0
        simp only [Nat.pow_zero] at h
        omega
      obtain ⟨k2, rfl⟩ : ∃ k2, k = k2 + 1 := ⟨k - 1, by omega⟩
      have hlt : n / 16 < 16 ^ k2 := by
        rw [Nat.div_lt_iff_lt_mul (by decide : 0 < 16)]
        calc n < 16 ^ (k2 + 1) := h
        _ = 16 ^ k2 * 16 := by rw [Nat.pow_succ]
      have := natHexRev_length fuel (n / 16) k2 hlt
      omega

theorem natHex_length {n k : Nat} (hk : 0 < k) (h : n < 16 ^ k) :
    (natHex n).length ≤ k := by
  unfold natHex
  by_cases h0 : n = 0
  · rw [if_pos h0]
    simpa using hk
  · rw [if_neg h0, List.length_reverse]
    exact natHexRev_length n n k h

theorem hexPad_length {w n : Nat} (hw : 0 < w) (h : n < 16 ^ w) :
    (hexPad w n).length = w := by
  unfold hexPad
  rw [List.length_append, List.length_replicate]
  have := natHex_length hw h
  omega

theorem natHex_ne_nil (n : Nat) : natHex n ≠ [] := by
  unfold natHex
  by_cases h0 : n = 0
  · rw [if_pos h0]
    simp
  · rw [if_neg h0]
    intro hrev
    rw [List.reverse_eq_nil_iff] at hrev
    obtain ⟨fuel, rfl⟩ : ∃ fuel, n = fuel + 1 := ⟨n - 1, by omega⟩
    rw [natHexRev, if_neg h0] at hrev
    cases hrev

theorem hexPad_ne_nil (w n : Nat) : hexPad w n ≠ [] := by
  unfold hexPad
  intro h
  rcases List.append_eq_nil.mp h with ⟨-, h2⟩
  exact natHex_ne_nil n h2

theorem skipWs_length : ∀ cs : List Char, (skipWs cs).length ≤ cs.length
  | [] => Nat.le_refl 0
  | c :: cs => by
    rw [skipWs]
    by_cases h : isWsC c = true
    · rw [if_pos h]
      exact Nat.le_succ_of_le (skipWs_length cs)
    · rw [if_neg h]

theorem skipWs_not_ws (cs : List Char) (hne : cs ≠ [])
    (hhead : ∀ c ∈ cs.take 1, isWsC c = false) : skipWs cs = cs := by
  cases cs with
  | nil => exact absurd rfl hne
  | cons c cs =>
    rw [skipWs, if_neg]
    rw [hhead c (by simp)]
    simp

theorem takeWhile_all_append {p : Char → Bool} :
    ∀ (l1 : List Char), (∀ c ∈ l1, p c = true) → ∀ (x : Char), p x = false →
      ∀ (l2 : List Char),
        (l1 ++ x :: l2).takeWhile p = l1 ∧ (l1 ++ x :: l2).dropWhile p = x :: l2
  | [], _, x, hx, l2 => by
    rw [List.nil_append]
    constructor
    · rw [List.takeWhile_cons, hx]
      rfl
    · rw [List.dropWhile_cons, hx]
      rfl
  | c :: l1, hall, x, hx, l2 => by
    have hc : p c = true := hall c (List.mem_cons_self c l1)
    have hrest := takeWhile_all_append l1 (fun d hd => hall d (List.mem_cons_of_mem c hd)) x hx l2
    constructor
    · rw [List.cons_append, List.takeWhile_cons, hc]
      simp [hrest.1]
    · rw [List.cons_append, List.dropWhile_cons, hc]
      simp [hrest.2]

theorem scanHexToken_line {w n : Nat} (rest : List Char) :
    scanHexToken (hexPad w n ++ '\n' :: rest) = some (n, '\n' :: rest) := by
  have hskip : skipWs (hexPad w n ++ '\n' :: rest) = hexPad w n ++ '\n' :: rest := by
    apply skipWs_not_ws
    · intro h
      rcases List.append_eq_nil.mp h with ⟨h1, -⟩
      exact hexPad_ne_nil w n h1
    · intro c hc
      have hmem : c ∈ hexPad w n := by
        have h1 : (hexPad w n ++ '\n' :: rest).take 1 = (hexPad w n).take 1 := by
          cases hp : hexPad w n with
          | nil => exact absurd hp (hexPad_ne_nil w n)
          | cons a l => simp [hp]
        rw [h1] at hc
        exact List.mem_of_mem_take hc
      exact (hexPad_chars w n c hmem).2.1
  have hsplit := takeWhile_all_append (hexPad w n)
    (fun c hc => (hexPad_chars w n c hc).1) '\n' (by decide) rest
  unfold scanHexToken
  rw [hskip, hsplit.1, hsplit.2]
  rw [if_neg]
  · rw [hexPad_val]
  · intro hemp
    rw [List.isEmpty_iff] at hemp
    exact hexPad_ne_nil w n hemp

theorem scanHexToken_nil : scanHexToken [] = none := rfl

theorem scanHexToken_ws_cons {c : Char} (hc : isWsC c = true) (cs : List Char) :
    scanHexToken (c :: cs) = scanHexToken cs := by
  unfold scanHexToken
  rw [show skipWs (c :: cs) = skipWs cs from by rw [skipWs, if_pos hc]]

theorem scanHexToken_length : ∀ {cs : List Char} {v : Nat} {rest : List Char},
    scanHexToken cs = some (v, rest) → rest.length < cs.length := by
  intro cs v rest h
  unfold scanHexToken at h
  by_cases he : ((skipWs cs).takeWhile isHexDigitC).isEmpty
  · rw [if_pos he] at h
    cases h
  · rw [if_neg he] at h
    have h2 : rest = (skipWs cs).dropWhile isHexDigitC := by
      cases h
      rfl
    have h3 : (skipWs cs).length
        = ((skipWs cs).takeWhile isHexDigitC).length
          + ((skipWs cs).dropWhile isHexDigitC).length := by
      rw [← List.length_append, List.takeWhile_append_dropWhile]
    have h4 : 0 < ((skipWs cs).takeWhile isHexDigitC).length := by
      cases htw : (skipWs cs).takeWhile isHexDigitC with
      | nil => rw [htw] at he; exact absurd rfl he
      | cons a l => simp [htw]
    have h5 := skipWs_length cs
    rw [h2]
    omega

theorem parseAllHexF_nil : ∀ fuel : Nat, parseAllHexF fuel ([] : List Char) = []
  | 0 => rfl
  | fuel + 1 => by rw [parseAllHexF, scanHexToken_nil]

theorem parseAllHexF_adequate : ∀ (f1 f2 : Nat) (cs : List Char),
    cs.length ≤ f1 → cs.length ≤ f2 → parseAllHexF f1 cs = parseAllHexF f2 cs
  | 0, f2, cs, h1, _ => by
    have : cs = [] := List.length_eq_zero.mp (Nat.le_zero.mp h1)
    subst this
    rw [parseAllHexF_nil, parseAllHexF_nil]
  | f1 + 1, 0, cs, _, h2 => by
    have : cs = [] := List.length_eq_zero.mp (Nat.le_zero.mp h2)
    subst this
    rw [parseAllHexF_nil, parseAllHexF_nil]
  | f1 + 1, f2 + 1, cs, h1, h2 => by
    rw [parseAllHexF, parseAllHexF]
    cases h : scanHexToken cs with
    | none => rfl
    | some p =>
      obtain ⟨v, rest⟩ := p
      have hlen2 : rest.length < cs.length := scanHexToken_length h
      show v :: parseAllHexF f1 rest = v :: parseAllHexF f2 rest
      rw [parseAllHexF_adequate f1 f2 rest (by omega) (by omega)]

theorem parseAllHex_nil : parseAllHex [] = [] := rfl

theorem parseAllHex_step {cs : List Char} {v : Nat} {rest : List Char}
    (h : scanHexToken cs = some (v, rest)) :
    parseAllHex cs = v :: parseAllHex rest := by
  have hlen : rest.length < cs.length := scanHexToken_length h
  unfold parseAllHex
  obtain ⟨L, hL⟩ : ∃ L, cs.length = L + 1 := ⟨cs.length - 1, by omega⟩
  rw [hL, parseAllHexF, h]
  show v :: parseAllHexF L rest = v :: parseAllHexF rest.length rest
  rw [parseAllHexF_adequate L rest.length rest (by omega) (Nat.le_refl _)]

theorem parseAllHex_none {cs : List Char} (h : scanHexToken cs = none) :
    parseAllHex cs = [] := by
  unfold parseAllHex
  cases hL : cs.length with
  | zero => rfl
  | succ L => rw [parseAllHexF, h]

theorem parseAllHex_ws_cons {c : Char} (hc : isWsC c = true) (cs : List Char) :
    parseAllHex (c :: cs) = parseAllHex cs := by
  cases h : scanHexToken cs with
  | none =>
    rw [parseAllHex_none h, parseAllHex_none (by rw [scanHexToken_ws_cons hc, h])]
  | some p =>
    obtain ⟨v, r⟩ := p
    have h2 : scanHexToken (c :: cs) = some (v, r) := by
      rw [scanHexToken_ws_cons hc]
      exact h
    rw [parseAllHex_step h2, parseAllHex_step h]

theorem parseAllHex_lines (W : Nat) :
    ∀ ns : List Nat, parseAllHex (ns.flatMap (fun x => hexPad W x ++ ['\n'])) = ns
  | [] => rfl
  | x :: ns => by
    rw [List.flatMap_cons, List.append_assoc, List.singleton_append]
    rw [parseAllHex_step (scanHexToken_line _)]
    rw [parseAllHex_ws_cons (by decide)]
    rw [parseAllHex_lines W ns]

theorem scanHexLoop_spec (w : Nat) :
    ∀ (remaining : Nat) (cs : List Char) (buf : Nat → Int) (count : Nat),
      (scanHexLoop w remaining cs buf count).2
          = count + min remaining (parseAllHex cs).length
      ∧ (∀ j : Nat, j < count ∨ count + min remaining (parseAllHex cs).length ≤ j →
          (scanHexLoop w remaining cs buf count).1 j = buf j)
      ∧ (∀ j : Nat, count ≤ j → j < count + min remaining (parseAllHex cs).length →
          (scanHexLoop w remaining cs buf count).1 j
            = toSigned w ((parseAllHex cs).getD (j - count) 0))
  | 0, cs, buf, count => by
    refine ⟨by simp [scanHexLoop], fun j _ => rfl, fun j h1 h2 => ?_⟩
    simp only [Nat.zero_min, Nat.add_zero] at h2
    omega
  | remaining + 1, cs, buf, count => by
    cases h : scanHexToken cs with
    | none =>
      have hp : parseAllHex cs = [] := parseAllHex_none h
      rw [show scanHexLoop w (remaining + 1) cs buf count = (buf, count) from by
        rw [scanHexLoop, h]]
      refine ⟨by simp [hp], fun j _ => rfl, fun j h1 h2 => ?_⟩
      rw [hp] at h2
      simp only [List.length_nil, Nat.min_zero, Nat.add_zero] at h2
      omega
    | some p =>
      obtain ⟨v, rest⟩ := p
      have hp : parseAllHex cs = v :: parseAllHex rest := parseAllHex_step h
      have hstep : scanHexLoop w (remaining + 1) cs buf count
          = scanHexLoop w remaining rest
              (Function.update buf count (toSigned w v)) (count + 1) := by
        rw [scanHexLoop, h]
      have ih := scanHexLoop_spec w remaining rest
        (Function.update buf count (toSigned w v)) (count + 1)
      have hmin : min (remaining + 1) (parseAllHex cs).length
          = min remaining (parseAllHex rest).length + 1 := by
        rw [hp, List.length_cons, Nat.succ_min_succ]
      refine ⟨?_, ?_, ?_⟩
      · rw [hstep, ih.1, hmin]
        omega
      · intro j hj
        rw [hstep, ih.2.1 j (by omega), Function.update_apply,
          if_neg (by omega : ¬ j = count)]
      · intro j hj1 hj2
        rw [hstep]
        by_cases hjc : j = count
        · subst hjc
          rw [ih.2.1 j (Or.inl (Nat.lt_succ_self j)), Function.update_apply, if_pos rfl,
            hp, Nat.sub_self, List.getD_cons_zero]
        · rw [ih.2.2 j (by omega) (by omega), hp]
          have hsub : j - count = (j - (count + 1)) + 1 := by omega
          rw [hsub, List.getD_cons_succ]

theorem toSigned_toBits_8 (v : Int) (h1 : -128 ≤ v) (h2 : v ≤ 127) :
    toSigned 8 (toBits 8 v) = v := by
  unfold toSigned toBits
  have e1 : ((2 : Int) ^ 8) = 256 := by norm_num
  have e2 : (2 : Nat) ^ 8 = 256 := by norm_num
  have e3 : (2 : Nat) ^ (8 - 1) = 128 := by norm_num
  rw [e1, e2, e3]
  have hmod : 0 ≤ v % 256 ∧ v % 256 < 256 :=
    ⟨Int.emod_nonneg v (by norm_num), Int.emod_lt_of_pos v (by norm_num)⟩
  have hv : v % 256 = if v < 0 then v + 256 else v := by
    rcases lt_or_ge v 0 with hneg | hpos
    · rw [if_pos hneg]
      omega
    · rw [if_neg (not_lt.mpr hpos)]
      omega
  split_ifs at hv with hneg <;> split_ifs with hlt <;> omega

theorem toSigned_toBits_32 (v : Int) (h1 : -(2 ^ 31) ≤ v) (h2 : v < 2 ^ 31) :
    toSigned 32 (toBits 32 v) = v := by
  unfold toSigned toBits
  have e1 : ((2 : Int) ^ 32) = 4294967296 := by norm_num
  have e2 : (2 : Nat) ^ 32 = 4294967296 := by norm_num
  have e3 : (2 : Nat) ^ (32 - 1) = 2147483648 := by norm_num
  have e4 : ((2 : Int) ^ 31) = 2147483648 := by norm_num
  rw [e1, e2, e3]
  rw [e4] at h1 h2
  have hmod : 0 ≤ v % 4294967296 ∧ v % 4294967296 < 4294967296 :=
    ⟨Int.emod_nonneg v (by norm_num), Int.emod_lt_of_pos v (by norm_num)⟩
  have hv : v % 4294967296 = if v < 0 then v + 4294967296 else v := by
    rcases lt_or_ge v 0 with hneg | hpos
    · rw [if_pos hneg]
      omega
    · rw [if_neg (not_lt.mpr hpos)]
      omega
  split_ifs at hv with hneg <;> split_ifs with hlt <;> omega

theorem toBits_8_lt (v : Int) : toBits 8 v < 16 ^ 2 := by
  unfold toBits
  have : ((2 : Int) ^ 8) = 256 := by norm_num
  rw [this]
  have h2 : v % 256 < 256 := Int.emod_lt_of_pos v (by norm_num)
  have h3 : 0 ≤ v % 256 := Int.emod_nonneg v (by norm_num)
  omega

theorem toBits_32_lt (v : Int) : toBits 32 v < 16 ^ 8 := by
  unfold toBits
  have : ((2 : Int) ^ 32) = 4294967296 := by norm_num
  rw [this]
  have h2 : v % 4294967296 < 4294967296 := Int.emod_lt_of_pos v (by norm_num)
  have h3 : 0 ≤ v % 4294967296 := Int.emod_nonneg v (by norm_num)
  omega

theorem dumpContent_8 (values : List Int) :
    dumpContent values 8 = values.flatMap (fun v => hexPad 2 (toBits 8 v) ++ ['\n']) := by
  unfold dumpContent
  rw [if_pos rfl, foldl_append_eq_flatMap, List.nil_append]

theorem dumpContent_32 (values : List Int) :
    dumpContent values 32
      = values.flatMap (fun v => hexPad 8 (toBits 32 v) ++ ['\n']) := by
  unfold dumpContent
  rw [if_neg (by decide), if_pos rfl, foldl_append_eq_flatMap, List.nil_append]

theorem parseAllHex_dump_8 (values : List Int) :
    parseAllHex (dumpContent values 8) = values.map (toBits 8) := by
  rw [dumpContent_8, ← List.flatMap_map (toBits 8)
    (fun x => hexPad 2 x ++ ['\n']) values, parseAllHex_lines 2]

theorem parseAllHex_dump_32 (values : List Int) :
    parseAllHex (dumpContent values 32) = values.map (toBits 32) := by
  rw [dumpContent_32, ← List.flatMap_map (toBits 32)
    (fun x => hexPad 8 x ++ ['\n']) values, parseAllHex_lines 8]

theorem getD_map_lt {α β : Type} (f : α → β) (l : List α) (j : Nat)
    (hj : j < l.length) (d : β) (d2 : α) :
    (l.map f).getD j d = f (l.getD j d2) := by
  have h2 : j < (l.map f).length := by simpa using hj
  rw [List.getD_eq_getElem _ _ h2, List.getD_eq_getElem _ _ hj, List.getElem_map]

theorem gen_loop_bounds {σ : Type} (randFn : σ → Nat × σ) :
    ∀ (l : List Nat) (acc : List Int × σ),
      (∀ x ∈ acc.1, -128 ≤ x ∧ x ≤ 127) →
      ∀ x ∈ (l.foldl
          (fun acc _ =>
            (acc.1 ++ [(((randFn acc.2).1 % 256 : Nat) : Int) - 128], (randFn acc.2).2))
          acc).1,
        -128 ≤ x ∧ x ≤ 127
  | [], acc, hacc => hacc
  | i :: l, acc, hacc => by
    rw [List.foldl_cons]
    apply gen_loop_bounds randFn l
    intro x hx
    rcases List.mem_append.mp hx with h1 | h2
    · exact hacc x h1
    · have he : x = (((randFn acc.2).1 % 256 : Nat) : Int) - 128 :=
        List.mem_singleton.mp h2
      have hb : (randFn acc.2).1 % 256 < 256 := Nat.mod_lt _ (by decide)
      subst he
      omega

/-- C1: for every input/weight buffer and all dimensions `K`, `M` (also when
not divisible by the 32×8 tile geometry), `ref_gemv_tiled` stores into
`output[o]`, for every `o < M`, exactly `Σ_{k<K} weights[o*K+k]*input[k]`,
i.e. the result of the direct GEMV `ref_gemv` with zero bias. -/
theorem gemv_tiled_matches_direct :
    ∀ (input weights output : Nat → Int) (K M o : Nat), o < M →
      ref_gemv_tiled input weights output K M o = gemvDirectSum input weights K o
      ∧ ref_gemv_tiled input weights output K M o
          = ref_gemv ⟨K, M, weights, input, output, fun _ => 0⟩ o := by
  intro input weights output K M o ho
  refine ⟨gemv_tiled_apply input weights output K M ho, ?_⟩
  rw [gemv_tiled_apply input weights output K M ho,
    ref_gemv_apply ⟨K, M, weights, input, output, fun _ => 0⟩ ho]
  simp only [add_zero]

/-- Witness for C1 at the ragged dimensions `K = 5`, `M = 3` (neither is a
multiple of the tile geometry). -/
theorem gemv_tiled_matches_direct_witness :
    (1 : Nat) < 3
    ∧ (ref_gemv_tiled (fun i => (i : Int) + 1) (fun j => (j : Int)) (fun _ => 7) 5 3 1
        = gemvDirectSum (fun i => (i : Int) + 1) (fun j => (j : Int)) 5 1
      ∧ ref_gemv_tiled (fun i => (i : Int) + 1) (fun j => (j : Int)) (fun _ => 7) 5 3 1
        = ref_gemv ⟨5, 3, (fun j => (j : Int)), (fun i => (i : Int) + 1),
            (fun _ => 7), fun _ => 0⟩ 1) :=
  ⟨by decide,
    gemv_tiled_matches_direct (fun i => (i : Int) + 1) (fun j => (j : Int)) (fun _ => 7)
      5 3 1 (by decide)⟩

/-- C2: for all `M`, `K`, `N` (also when `M`, `K` are not divisible by the
tile geometry), `ref_gemm_tiled` produces `C` element-wise equal to the
direct GEMM: `C[m*N+n] = Σ_{k<K} A[m*K+k]*B[k*N+n]`, i.e. the result of
`ref_gemm`, for every `m < M` and `n < N`. -/
theorem gemm_tiled_matches_direct :
    ∀ (a b c : Nat → Int) (M K N m n : Nat), m < M → n < N →
      ref_gemm_tiled a b c M K N (m * N + n) = gemmDirectSum a b K N m n
      ∧ ref_gemm_tiled a b c M K N (m * N + n) = ref_gemm ⟨M, K, N, a, b, c⟩ (m * N + n) := by
  intro a b c M K N m n hm hn
  refine ⟨gemm_tiled_apply a b c M K N hm hn, ?_⟩
  rw [gemm_tiled_apply a b c M K N hm hn,
    ref_gemm_apply ⟨M, K, N, a, b, c⟩ hm hn]

/-- Witness for C2 at the ragged dimensions `M = 3`, `K = 5`, `N = 2`. -/
theorem gemm_tiled_matches_direct_witness :
    ((2 : Nat) < 3 ∧ (1 : Nat) < 2)
    ∧ (ref_gemm_tiled (fun j => (j : Int)) (fun j => (j : Int) - 3) (fun _ => 9)
          3 5 2 (2 * 2 + 1)
        = gemmDirectSum (fun j => (j : Int)) (fun j => (j : Int) - 3) 5 2 2 1
      ∧ ref_gemm_tiled (fun j => (j : Int)) (fun j => (j : Int) - 3) (fun _ => 9)
          3 5 2 (2 * 2 + 1)
        = ref_gemm ⟨3, 5, 2, (fun j => (j : Int)), (fun j => (j : Int) - 3),
            (fun _ => 9)⟩ (2 * 2 + 1)) :=
  ⟨⟨by decide, by decide⟩,
    gemm_tiled_matches_direct (fun j => (j : Int)) (fun j => (j : Int) - 3) (fun _ => 9)
      3 5 2 2 1 (by decide) (by decide)⟩

/-- C3: `ref_mac` adds the 32-bit product of its 8-bit operands to the
accumulator and does nothing else; at the boundary values `(127,127)`,
`(-128,-128)` and `(127,-128)` from accumulator `0` it yields `16129`,
`16384` and `-16256`. -/
theorem ref_mac_correct :
    (∀ input weight acc : Int,
      -128 ≤ input → input ≤ 127 → -128 ≤ weight → weight ≤ 127 →
      ref_mac input weight acc = acc + input * weight)
    ∧ ref_mac 127 127 0 = 16129
    ∧ ref_mac (-128) (-128) 0 = 16384
    ∧ ref_mac 127 (-128) 0 = -16256 :=
  ⟨fun _ _ _ _ _ _ _ => rfl, by decide, by decide, by decide⟩

/-- Witness for C3 at `input = 3`, `weight = -5`, `acc = 100`. -/
theorem ref_mac_correct_witness :
    ((-128 : Int) ≤ 3 ∧ (3 : Int) ≤ 127 ∧ (-128 : Int) ≤ -5 ∧ (-5 : Int) ≤ 127)
    ∧ ref_mac 3 (-5) 100 = 100 + 3 * (-5) :=
  ⟨⟨by decide, by decide, by decide, by decide⟩,
    ref_mac_correct.1 3 (-5) 100 (by decide) (by decide) (by decide) (by decide)⟩

/-- C4: the direct GEMV `ref_gemv` sets `output[m]`, for every
`m < output_dim`, to `bias[m]` plus the ascending-order sum
`Σ_{k<K} weights[m*K+k] * input[k]`. -/
theorem ref_gemv_direct_correct :
    ∀ (layer : GemvLayer) (o : Nat), o < layer.output_dim →
      ref_gemv layer o
        = layer.bias o + gemvDirectSum layer.input layer.weights layer.input_dim o := by
  intro layer o ho
  rw [ref_gemv_apply layer ho, add_comm]

/-- Witness for C4 at a concrete 2×2 layer and row `o = 1`. -/
theorem ref_gemv_direct_correct_witness :
    (1 : Nat) < 2
    ∧ ref_gemv ⟨2, 2, (fun j => (j : Int)), (fun i => (i : Int) + 1),
          (fun _ => 0), (fun o => (o : Int) + 10)⟩ 1
        = (fun o => (o : Int) + 10) 1
          + gemvDirectSum (fun i => (i : Int) + 1) (fun j => (j : Int)) 2 1 :=
  ⟨by decide,
    ref_gemv_direct_correct ⟨2, 2, (fun j => (j : Int)), (fun i => (i : Int) + 1),
      (fun _ => 0), (fun o => (o : Int) + 10)⟩ 1 (by decide)⟩

theorem load_some_8 (cs : List Char) (buf : Nat → Int) (len : Nat) :
    load_from_hex_file (some cs) buf len 8
      = ((scanHexLoop 8 len cs buf 0).1, ((scanHexLoop 8 len cs buf 0).2 : Int)) := rfl

theorem load_some_32 (cs : List Char) (buf : Nat → Int) (len : Nat) :
    load_from_hex_file (some cs) buf len 32
      = ((scanHexLoop 32 len cs buf 0).1, ((scanHexLoop 32 len cs buf 0).2 : Int)) := rfl

theorem load_some_other (cs : List Char) (buf : Nat → Int) (len w : Nat)
    (h8 : w ≠ 8) (h32 : w ≠ 32) :
    load_from_hex_file (some cs) buf len w = (buf, 0) := by
  show (if w = 8 then
      ((scanHexLoop 8 len cs buf 0).1, ((scanHexLoop 8 len cs buf 0).2 : Int))
    else if w = 32 then
      ((scanHexLoop 32 len cs buf 0).1, ((scanHexLoop 32 len cs buf 0).2 : Int))
    else (buf, 0)) = (buf, 0)
  rw [if_neg h8, if_neg h32]

/-- C5: writing any buffer of in-range signed 8-bit (resp. 32-bit) values
with `dump_to_hex_file` and reading the resulting file back with
`load_from_hex_file` at the same width, with `len` equal to the buffer
length, returns count `len` and reproduces exactly the original values in
the original order. -/
theorem hex_roundtrip :
    ∀ (values : List Int) (buf : Nat → Int),
      ((∀ v ∈ values, -128 ≤ v ∧ v ≤ 127) →
        (load_from_hex_file (some (dumpContent values 8)) buf values.length 8).2
            = (values.length : Int)
        ∧ ∀ j : Nat, j < values.length →
            (load_from_hex_file (some (dumpContent values 8)) buf values.length 8).1 j
              = values.getD j 0)
      ∧ ((∀ v ∈ values, -(2 ^ 31) ≤ v ∧ v < 2 ^ 31) →
        (load_from_hex_file (some (dumpContent values 32)) buf values.length 32).2
            = (values.length : Int)
        ∧ ∀ j : Nat, j < values.length →
            (load_from_hex_file (some (dumpContent values 32)) buf values.length 32).1 j
              = values.getD j 0) := by
  intro values buf
  constructor
  · intro hrange
    rw [load_some_8]
    have spec := scanHexLoop_spec 8 values.length (dumpContent values 8) buf 0
    have hlen : (parseAllHex (dumpContent values 8)).length = values.length := by
      rw [parseAllHex_dump_8, List.length_map]
    constructor
    · rw [spec.1, hlen, Nat.zero_add, Nat.min_self]
    · intro j hj
      have hmem : values.getD j 0 ∈ values := by
        rw [List.getD_eq_getElem _ _ hj]
        exact List.getElem_mem hj
      rw [spec.2.2 j (Nat.zero_le j) (by omega), Nat.sub_zero, parseAllHex_dump_8,
        getD_map_lt (toBits 8) values j hj 0 0,
        toSigned_toBits_8 _ (hrange _ hmem).1 (hrange _ hmem).2]
  · intro hrange
    rw [load_some_32]
    have spec := scanHexLoop_spec 32 values.length (dumpContent values 32) buf 0
    have hlen : (parseAllHex (dumpContent values 32)).length = values.length := by
      rw [parseAllHex_dump_32, List.length_map]
    constructor
    · rw [spec.1, hlen, Nat.zero_add, Nat.min_self]
    · intro j hj
      have hmem : values.getD j 0 ∈ values := by
        rw [List.getD_eq_getElem _ _ hj]
        exact List.getElem_mem hj
      rw [spec.2.2 j (Nat.zero_le j) (by omega), Nat.sub_zero, parseAllHex_dump_32,
        getD_map_lt (toBits 32) values j hj 0 0,
        toSigned_toBits_32 _ (hrange _ hmem).1 (hrange _ hmem).2]

/-- Witness for C5 on the buffer `[-1, 0, 127, -128]` at width 8. -/
theorem hex_roundtrip_witness :
    (load_from_hex_file (some (dumpContent [-1, 0, 127, -128] 8)) (fun _ => 3)
        ([-1, 0, 127, -128] : List Int).length 8).1 2
      = ([-1, 0, 127, -128] : List Int).getD 2 0 :=
  (((hex_roundtrip [-1, 0, 127, -128] (fun _ => 3)).1 (by decide)).2) 2 (by decide)

/-- C6: when the file opens, `dump_to_hex_file` writes each value in input
order as the upper-case hex rendering of its two's-complement unsigned bit
pattern, zero-padded to `width/4` digits (2 for width 8, 8 for width 32),
one value per line each followed by a newline, and nothing else; in
particular `-1` is written as `FF` at width 8 and `FFFFFFFF` at width 32. -/
theorem dump_hex_format :
    ∀ (values : List Int) (filename : String),
      (dump_to_hex_file true filename values 8).file = some (dumpContent values 8)
      ∧ (dump_to_hex_file true filename values 32).file = some (dumpContent values 32)
      ∧ dumpContent values 8 = values.flatMap (fun v => hexPad 2 (toBits 8 v) ++ ['\n'])
      ∧ dumpContent values 32 = values.flatMap (fun v => hexPad 8 (toBits 32 v) ++ ['\n'])
      ∧ (∀ v : Int, (hexPad 2 (toBits 8 v)).length = 2
          ∧ (∀ c ∈ hexPad 2 (toBits 8 v), isUpperHexC c = true)
          ∧ hexVal (hexPad 2 (toBits 8 v)) = toBits 8 v)
      ∧ (∀ v : Int, (hexPad 8 (toBits 32 v)).length = 8
          ∧ (∀ c ∈ hexPad 8 (toBits 32 v), isUpperHexC c = true)
          ∧ hexVal (hexPad 8 (toBits 32 v)) = toBits 32 v)
      ∧ dumpContent [(-1)] 8 = "FF\n".toList
      ∧ dumpContent [(-1)] 32 = "FFFFFFFF\n".toList := by
  intro values filename
  refine ⟨rfl, rfl, dumpContent_8 values, dumpContent_32 values, ?_, ?_, by decide, by decide⟩
  · intro v
    exact ⟨hexPad_length (by decide) (toBits_8_lt v),
      fun c hc => (hexPad_chars 2 (toBits 8 v) c hc).2.2, hexPad_val 2 (toBits 8 v)⟩
  · intro v
    exact ⟨hexPad_length (by decide) (toBits_32_lt v),
      fun c hc => (hexPad_chars 8 (toBits 32 v) c hc).2.2, hexPad_val 8 (toBits 32 v)⟩

/-- Witness for C6: the first digit written for the byte pattern of `-75`
(`0xB5`) is an upper-case hex character. -/
theorem dump_hex_format_witness :
    isUpperHexC 'B' = true :=
  ((dump_hex_format [] "f").2.2.2.2.1 (-75)).2.1 'B' (by decide)

/-- C7: two `generate_random_i8` calls with the same `(len, seed)` produce
identical buffers regardless of the generator state left by earlier calls
(`srand(seed)` reinitializes the generator on every invocation), and every
generated value, obtained as `(rand() % 256) - 128`, lies in `[-128, 127]`. -/
theorem generate_random_deterministic :
    ∀ (σ : Type) (srandFn : Nat → σ) (randFn : σ → Nat × σ) (g1 g2 : σ)
      (len seed : Nat),
      (generate_random_i8 srandFn randFn g1 len seed).1
          = (generate_random_i8 srandFn randFn g2 len seed).1
      ∧ ∀ x ∈ (generate_random_i8 srandFn randFn g1 len seed).1,
          -128 ≤ x ∧ x ≤ 127 := by
  intro σ srandFn randFn g1 g2 len seed
  refine ⟨rfl, ?_⟩
  exact gen_loop_bounds randFn (List.range len) ([], srandFn seed)
    (fun x hx => absurd hx (List.not_mem_nil x))

/-- Witness for C7 with the counter generator `randFn s = (s, s + 1)`,
`len = 2`, `seed = 300`: the first draw is `300 % 256 - 128 = -84`. -/
theorem generate_random_deterministic_witness :
    (-128 : Int) ≤ -84 ∧ (-84 : Int) ≤ 127 :=
  (generate_random_deterministic Nat (fun s => s) (fun s => (s, s + 1)) 0 99 2 300).2
    (-84) (by decide)

/-- C8: `load_from_hex_file` returns `-1` (buffer untouched) when the file
cannot be opened; otherwise it reads greedily until end of file, `len`
values, or the first malformed token, returning the number of values read,
each parsed as an unsigned hex integer and reinterpreted at the given
signed width; on the concrete file `"0A\nGG\n0B\n"` with `len = 3` it
returns `1` (the malformed token `GG` stops the read without an error). -/
theorem load_hex_contract :
    ∀ (buf : Nat → Int) (len w : Nat) (cs : List Char),
      load_from_hex_file none buf len w = (buf, -1)
      ∧ (w = 8 ∨ w = 32 →
          (load_from_hex_file (some cs) buf len w).2
              = ((min len (parseAllHex cs).length : Nat) : Int)
          ∧ ∀ j : Nat, j < min len (parseAllHex cs).length →
              (load_from_hex_file (some cs) buf len w).1 j
                = toSigned w ((parseAllHex cs).getD j 0))
      ∧ (load_from_hex_file (some ("0A\nGG\n0B\n".toList)) buf 3 8).2 = 1 := by
  intro buf len w cs
  refine ⟨rfl, ?_, ?_⟩
  · rintro (rfl | rfl)
    · rw [load_some_8]
      have spec := scanHexLoop_spec 8 len cs buf 0
      refine ⟨by rw [spec.1, Nat.zero_add], fun j hj => ?_⟩
      rw [spec.2.2 j (Nat.zero_le j) (by omega), Nat.sub_zero]
    · rw [load_some_32]
      have spec := scanHexLoop_spec 32 len cs buf 0
      refine ⟨by rw [spec.1, Nat.zero_add], fun j hj => ?_⟩
      rw [spec.2.2 j (Nat.zero_le j) (by omega), Nat.sub_zero]
  · rw [load_some_8]
    show ((scanHexLoop 8 3 ("0A\nGG\n0B\n".toList) buf 0).2 : Int) = 1
    rw [(scanHexLoop_spec 8 3 ("0A\nGG\n0B\n".toList) buf 0).1,
      show (parseAllHex ("0A\nGG\n0B\n".toList)).length = 1 from by decide]
    rfl

/-- Witness for C8: count returned on the one-token file `"0A\n"`. -/
theorem load_hex_contract_witness :
    (load_from_hex_file (some ("0A\n".toList)) (fun _ => 5) 1 8).2
      = ((min 1 (parseAllHex ("0A\n".toList)).length : Nat) : Int) :=
  ((load_hex_contract (fun _ => 5) 1 8 ("0A\n".toList)).2.1 (Or.inl rfl)).1

/-- C9 (counterexample): the claim says the open failure of
`dump_to_hex_file` is reported to the caller; but the C function returns
`void`: at a concrete input the value returned to the caller on failure is
identical to the one returned on success — only the console output and the
absence of a written file distinguish the two. -/
theorem dump_error_counterexample :
    (dump_to_hex_file false "test.hex" [1] 8).ret
        = (dump_to_hex_file true "test.hex" [1] 8).ret
    ∧ (dump_to_hex_file false "test.hex" [1] 8).file = none
    ∧ (dump_to_hex_file false "test.hex" [1] 8).console
        ≠ (dump_to_hex_file true "test.hex" [1] 8).console := by
  refine ⟨rfl, rfl, ?_⟩
  decide

/-- C9 (amended): when the destination cannot be opened, `dump_to_hex_file`
prints an error message to the console and returns without writing any file
contents (no partial side effects); its return type is `void`, so the
caller receives no programmatic error indication — failure and success
return the identical value. -/
theorem dump_error_amended :
    ∀ (filename : String) (values : List Int) (width : Nat),
      (dump_to_hex_file false filename values width).file = none
      ∧ (dump_to_hex_file false filename values width).console
          = "Error: Cannot open file " ++ filename ++ "\n"
      ∧ (dump_to_hex_file false filename values width).ret
          = (dump_to_hex_file true filename values width).ret :=
  fun _ _ _ => ⟨rfl, rfl, rfl⟩

/-- C10: whenever the file opens, `load_from_hex_file` returns a count
between `0` and `len`, and every buffer index at or beyond the returned
count — in particular every index at or beyond `len` — is left untouched,
however many tokens the file contains. -/
theorem load_hex_bounds :
    ∀ (cs : List Char) (buf : Nat → Int) (len w : Nat),
      0 ≤ (load_from_hex_file (some cs) buf len w).2
      ∧ (load_from_hex_file (some cs) buf len w).2 ≤ (len : Int)
      ∧ ∀ j : Nat, (load_from_hex_file (some cs) buf len w).2 ≤ (j : Int) →
          (load_from_hex_file (some cs) buf len w).1 j = buf j := by
  intro cs buf len w
  by_cases h8 : w = 8
  · subst h8
    rw [load_some_8]
    dsimp only
    have spec := scanHexLoop_spec 8 len cs buf 0
    refine ⟨Int.natCast_nonneg _, ?_, ?_⟩
    · rw [spec.1]
      have h : 0 + min len (parseAllHex cs).length ≤ len := by omega
      exact_mod_cast h
    · intro j hj
      have hj2 : (scanHexLoop 8 len cs buf 0).2 ≤ j := by exact_mod_cast hj
      rw [spec.1] at hj2
      exact spec.2.1 j (Or.inr hj2)
  by_cases h32 : w = 32
  · subst h32
    rw [load_some_32]
    dsimp only
    have spec := scanHexLoop_spec 32 len cs buf 0
    refine ⟨Int.natCast_nonneg _, ?_, ?_⟩
    · rw [spec.1]
      have h : 0 + min len (parseAllHex cs).length ≤ len := by omega
      exact_mod_cast h
    · intro j hj
      have hj2 : (scanHexLoop 32 len cs buf 0).2 ≤ j := by exact_mod_cast hj
      rw [spec.1] at hj2
      exact spec.2.1 j (Or.inr hj2)
  · rw [load_some_other cs buf len w h8 h32]
    exact ⟨le_refl 0, Int.natCast_nonneg len, fun j _ => rfl⟩

/-- Witness for C10: on the one-token file `"0A\n"` with `len = 1`, index 7
of the buffer is untouched. -/
theorem load_hex_bounds_witness :
    (load_from_hex_file (some ("0A\n".toList)) (fun _ => 5) 1 8).1 7 = 5 :=
  (load_hex_bounds ("0A\n".toList) (fun _ => 5) 1 8).2.2 7 (by decide)
